import Mathlib

/-!
Verification of the DNA FASTA generator (`s29385_2025.py`).

The Python program is embedded shallowly:

* Python strings become `List Char`.
* Percentages, computed with Python float division, are modelled over `Rat`
  (the spec's claims about percentages are stated over exact rational
  arithmetic).
* `random` (Python's stdlib) is modelled as an abstract deterministic
  pseudo-random generator: a state type `σ`, a seeding function, one step
  producing a uniform draw from a 4-element population (for
  `random.choices('ACGT', ...)`), and a bounded draw for
  `random.randint(0, n)`.  Every theorem about randomised code quantifies
  over the generator, so it holds for any concrete PRNG (including the
  Mersenne Twister the CPython runtime uses).
* A Python exception (here: `ZeroDivisionError`) is modelled by returning
  `none`.
-/

/-- The nucleotide alphabet, the Python string literal `'ACGT'`. -/
def Nucs : List Char := ['A', 'C', 'G', 'T']

/-- `dna_only = ''.join([base for base in sequence if base in 'ACGT'])`
(the filtering step at the top of `calculate_stats`). -/
def dnaOnly (sequence : List Char) : List Char :=
  sequence.filter (fun base => base ∈ Nucs)

/-- The dictionary `{nuc: ... for nuc in 'ACGT'}` returned by
`calculate_stats`: one percentage per nucleotide, keys in the order
`'A', 'C', 'G', 'T'`. -/
structure Stats where
  a : Rat
  c : Rat
  g : Rat
  t : Rat
deriving DecidableEq, Repr

/-- One entry of the dict comprehension:
`(dna_only.count(nuc) / total) * 100` with `total = len(dna_only)`. -/
def pctOf (dna_only : List Char) (nuc : Char) : Rat :=
  ((dna_only.count nuc : Rat) / (dna_only.length : Rat)) * 100

/-- The full dict `stats` built by `calculate_stats`. -/
def statsOf (dna_only : List Char) : Stats :=
  ⟨pctOf dna_only 'A', pctOf dna_only 'C', pctOf dna_only 'G', pctOf dna_only 'T'⟩

/-- `cg_ratio = ((stats['C'] + stats['G']) / (stats['A'] + stats['T']))
if (stats['A'] + stats['T']) > 0 else 0`. -/
def ratioOf (stats : Stats) : Rat :=
  if stats.a + stats.t > 0 then (stats.c + stats.g) / (stats.a + stats.t) else 0

/-- `calculate_stats(sequence)`.  The Python body divides each count by
`total = len(dna_only)` with no guard, so when `total == 0` the dict
comprehension raises `ZeroDivisionError`; that fault is modelled by the
`none` branch (the source has no such guard — only the ratio's denominator
is checked).  Otherwise it returns the stats dict and the CG/AT ratio. -/
def calculate_stats (sequence : List Char) : Option (Stats × Rat) :=
  if (dnaOnly sequence).length = 0 then none
  else some (statsOf (dnaOnly sequence), ratioOf (statsOf (dnaOnly sequence)))

/-- Abstract model of Python's `random` module state: `seedFn` is
`random.seed`, `choice4` draws one uniform element of a 4-element
population (one sample of `random.choices('ACGT', ...)`), `randint st n`
is `random.randint(0, n)`, which by the stdlib contract returns a value
in `[0, n]` (`randint_le`). -/
structure PyRandom (σ : Type) where
  seedFn : Nat → σ
  choice4 : σ → Fin 4 × σ
  randint : σ → Nat → Nat × σ
  randint_le : ∀ st n, (randint st n).1 ≤ n

/-- `random.choices('ACGT', k=n)`: `n` successive draws, in draw order. -/
def choices4 {σ : Type} (R : PyRandom σ) : Nat → σ → List (Fin 4) × σ
  | 0, st => ([], st)
  | n + 1, st =>
    let d := R.choice4 st
    let rest := choices4 R n d.2
    (d.1 :: rest.1, rest.2)

/-- Index into the population string `'ACGT'`. -/
def nucAt (d : Fin 4) : Char := Nucs.get d

/-- `generate_dna_sequence(length, seed=None)`: if a seed is provided the
random source is reseeded first, then `''.join(random.choices('ACGT',
k=length))` is returned.  The PRNG state is threaded explicitly. -/
def generate_dna_sequence {σ : Type} (R : PyRandom σ) (length : Nat)
    (seed : Option Nat) (st : σ) : List Char × σ :=
  let st0 := match seed with
    | some s => R.seedFn s
    | none => st
  let draws := choices4 R length st0
  (draws.1.map nucAt, draws.2)

/-- `insert_name(sequence, name)`: draws
`insert_pos = random.randint(0, len(sequence))` and returns
`sequence[:insert_pos] + name + sequence[insert_pos:]`. -/
def insert_name {σ : Type} (R : PyRandom σ) (sequence name : List Char)
    (st : σ) : List Char × σ :=
  let p := R.randint st sequence.length
  (sequence.take p.1 ++ name ++ sequence.drop p.1, p.2)

/-- The `__main__` block's generation step:
`dna_sequence = generate_dna_sequence(length, seed=42)` — the seed is the
hardcoded literal `42`. -/
def main_dna_sequence {σ : Type} (R : PyRandom σ) (length : Nat) (st : σ) :
    List Char × σ :=
  generate_dna_sequence R length (some 42) st

/-- A concrete pseudo-random generator (a small linear congruential
generator) used only to instantiate witness theorems. -/
def demoRandom : PyRandom Nat :=
  ⟨fun s => s,
   fun st => (⟨st % 4, Nat.mod_lt st (by decide)⟩, st * 1103515245 + 12345),
   fun st n => (st % (n + 1), st * 1103515245 + 12345),
   fun st n => Nat.lt_succ_iff.mp (Nat.mod_lt st (Nat.succ_pos n))⟩

/-! ## Helper lemmas -/

lemma choices4_length {σ : Type} (R : PyRandom σ) (n : Nat) :
    ∀ st, (choices4 R n st).1.length = n := by
  induction n with
  | zero => intro st; rfl
  | succ n ih => intro st; simp [choices4, ih]

lemma nucAt_mem (d : Fin 4) : nucAt d ∈ Nucs := by
  fin_cases d <;> decide

lemma dnaOnly_mem_nucs (s : List Char) : ∀ x ∈ dnaOnly s, x ∈ Nucs := by
  intro x hx
  simp only [dnaOnly, List.mem_filter, decide_eq_true_eq] at hx
  exact hx.2

/-- Every character of a list over the alphabet `'ACGT'` is counted exactly
once by one of the four per-nucleotide counts. -/
lemma count_sum_eq_length (l : List Char) (h : ∀ x ∈ l, x ∈ Nucs) :
    l.count 'A' + l.count 'C' + l.count 'G' + l.count 'T' = l.length := by
  induction l with
  | nil => simp
  | cons c cs ih =>
    have hc : c ∈ Nucs := h c (by simp)
    have ih2 := ih fun x hx => h x (List.mem_cons_of_mem _ hx)
    simp only [Nucs, List.mem_cons, List.not_mem_nil, or_false] at hc
    rcases hc with rfl | rfl | rfl | rfl <;>
      simp [List.count_cons] <;> omega

/-! ## Claims C1..C6, C10 -/

/-- C1: the spec requires the division by the count of valid nucleotides to
be explicitly guarded; the source is not guarded — the dict comprehension
divides by `total = len(dna_only)` unconditionally, so on an input with
zero characters from `'ACGT'` (the empty string, or a string of only
non-DNA characters) `calculate_stats` raises `ZeroDivisionError`,
modelled here by the `none` result. -/
theorem calculate_stats_zero_nucleotides_faults :
    calculate_stats [] = none ∧ calculate_stats ['X', 'Y', '!'] = none := by
  exact ⟨by decide, by decide⟩

/-- C2: `insert_name` returns a string of length `len(seq) + len(name)`;
the draw of `random.randint(0, len(seq))` gives a position `pos ≤ len(seq)`
such that the result is `seq[:pos] + name + seq[pos:]`, and removing the
name block at that position recovers `seq` exactly (so the original
characters keep their relative order and the name is one contiguous
block). -/
theorem insert_name_splice_correct {σ : Type} (R : PyRandom σ)
    (seq name : List Char) (st : σ) :
    (insert_name R seq name st).1.length = seq.length + name.length ∧
    ∃ pos ≤ seq.length,
      (insert_name R seq name st).1 = seq.take pos ++ name ++ seq.drop pos ∧
      ((insert_name R seq name st).1.take pos) ++
        ((insert_name R seq name st).1.drop (pos + name.length)) = seq := by
  have hle := R.randint_le st seq.length
  refine ⟨?_, (R.randint st seq.length).1, hle, rfl, ?_⟩
  · show (seq.take _ ++ name ++ seq.drop _).length = _
    simp only [List.length_append, List.length_take, List.length_drop]
    omega
  · show (seq.take _ ++ name ++ seq.drop _).take _ ++
      (seq.take _ ++ name ++ seq.drop _).drop _ = seq
    have hlen : (seq.take (R.randint st seq.length).1).length =
        (R.randint st seq.length).1 := by simp [hle]
    have hlen2 : (seq.take (R.randint st seq.length).1 ++ name).length =
        (R.randint st seq.length).1 + name.length := by simp [hle]
    rw [List.append_assoc, List.take_left' hlen, ← List.append_assoc,
      List.drop_left' hlen2]
    exact List.take_append_drop _ seq

/-- C3: for every input with at least one valid nucleotide, the four
percentages returned by `calculate_stats` sum to exactly 100 over rational
arithmetic, regardless of inserted non-DNA characters (percentages are
computed over the `'ACGT'`-filtered characters only). -/
theorem calculate_stats_percentages_sum_100 (s : List Char)
    (h : dnaOnly s ≠ []) :
    ∃ st r, calculate_stats s = some (st, r) ∧
      st.a + st.c + st.g + st.t = 100 := by
  have hlen : (dnaOnly s).length ≠ 0 := fun hh => h (List.length_eq_zero.mp hh)
  refine ⟨statsOf (dnaOnly s), ratioOf (statsOf (dnaOnly s)), ?_, ?_⟩
  · simp [calculate_stats, hlen]
  · have hsum := count_sum_eq_length (dnaOnly s) (dnaOnly_mem_nucs s)
    have hq : ((dnaOnly s).count 'A' : Rat) + (dnaOnly s).count 'C' +
        (dnaOnly s).count 'G' + (dnaOnly s).count 'T' =
        ((dnaOnly s).length : Rat) := by exact_mod_cast hsum
    have hne : ((dnaOnly s).length : Rat) ≠ 0 := Nat.cast_ne_zero.mpr hlen
    simp only [statsOf, pctOf]
    field_simp
    linarith [hq]

theorem calculate_stats_percentages_sum_100_witness :
    ∃ st r, calculate_stats ['A', 'A', 'C', 'C', 'G', 'G', 'T', 'T'] =
      some (st, r) ∧ st.a + st.c + st.g + st.t = 100 :=
  calculate_stats_percentages_sum_100 _ (by decide)

/-- C4: the CG/AT ratio returned by `calculate_stats` is
`(pct C + pct G) / (pct A + pct T)` when `pct A + pct T > 0` and `0`
otherwise; concretely, `"AACCGGTT"` gives 25% for each nucleotide with
ratio 1, and `"AAAA"` gives A = 100%, C = G = T = 0% with ratio 0. -/
theorem calculate_stats_ratio_and_scenarios :
    calculate_stats ['A', 'A', 'C', 'C', 'G', 'G', 'T', 'T'] =
      some (⟨25, 25, 25, 25⟩, 1) ∧
    calculate_stats ['A', 'A', 'A', 'A'] = some (⟨100, 0, 0, 0⟩, 0) ∧
    ∀ s st r, calculate_stats s = some (st, r) →
      r = if st.a + st.t > 0 then (st.c + st.g) / (st.a + st.t) else 0 := by
  refine ⟨?_, ?_, ?_⟩
  · have hd : dnaOnly ['A', 'A', 'C', 'C', 'G', 'G', 'T', 'T'] =
        ['A', 'A', 'C', 'C', 'G', 'G', 'T', 'T'] := by decide
    have hA : List.count 'A' ['A', 'A', 'C', 'C', 'G', 'G', 'T', 'T'] = 2 := by decide
    have hC : List.count 'C' ['A', 'A', 'C', 'C', 'G', 'G', 'T', 'T'] = 2 := by decide
    have hG : List.count 'G' ['A', 'A', 'C', 'C', 'G', 'G', 'T', 'T'] = 2 := by decide
    have hT : List.count 'T' ['A', 'A', 'C', 'C', 'G', 'G', 'T', 'T'] = 2 := by decide
    norm_num [calculate_stats, statsOf, pctOf, ratioOf, hd, hA, hC, hG, hT]
  · have hd : dnaOnly ['A', 'A', 'A', 'A'] = ['A', 'A', 'A', 'A'] := by decide
    have hA : List.count 'A' ['A', 'A', 'A', 'A'] = 4 := by decide
    have hC : List.count 'C' ['A', 'A', 'A', 'A'] = 0 := by decide
    have hG : List.count 'G' ['A', 'A', 'A', 'A'] = 0 := by decide
    have hT : List.count 'T' ['A', 'A', 'A', 'A'] = 0 := by decide
    norm_num [calculate_stats, statsOf, pctOf, ratioOf, hd, hA, hC, hG, hT]
  · intro s st r hsr
    simp only [calculate_stats] at hsr
    split at hsr
    · exact absurd hsr (by simp)
    · simp only [Option.some.injEq, Prod.mk.injEq] at hsr
      obtain ⟨h1, h2⟩ := hsr
      subst h1
      subst h2
      rfl

theorem calculate_stats_ratio_and_scenarios_witness :
    (0 : Rat) = if (Stats.mk 100 0 0 0).a + (Stats.mk 100 0 0 0).t > 0 then
      ((Stats.mk 100 0 0 0).c + (Stats.mk 100 0 0 0).g) /
        ((Stats.mk 100 0 0 0).a + (Stats.mk 100 0 0 0).t) else 0 :=
  calculate_stats_ratio_and_scenarios.2.2 ['A', 'A', 'A', 'A'] ⟨100, 0, 0, 0⟩ 0
    calculate_stats_ratio_and_scenarios.2.1

/-- C5: for every positive length, any seed (or none), any PRNG and any
starting state, `generate_dna_sequence` returns a string of exactly
`length` characters, each one of `'A'`, `'C'`, `'G'`, `'T'`. -/
theorem generate_dna_sequence_length_alphabet {σ : Type} (R : PyRandom σ)
    (length : Nat) (hpos : 0 < length) (seed : Option Nat) (st : σ) :
    (generate_dna_sequence R length seed st).1.length = length ∧
    ∀ c ∈ (generate_dna_sequence R length seed st).1, c ∈ Nucs := by
  constructor
  · simp [generate_dna_sequence, choices4_length]
  · intro c hc
    simp only [generate_dna_sequence, List.mem_map] at hc
    obtain ⟨d, _, rfl⟩ := hc
    exact nucAt_mem d

theorem generate_dna_sequence_length_alphabet_witness :
    (generate_dna_sequence demoRandom 3 (some 7) 0).1.length = 3 ∧
    ∀ c ∈ (generate_dna_sequence demoRandom 3 (some 7) 0).1, c ∈ Nucs :=
  generate_dna_sequence_length_alphabet demoRandom 3 (by decide) (some 7) 0

/-- C6: with a seed provided, `generate_dna_sequence` reseeds the random
source before drawing, so two calls with the same positive length and the
same seed return identical strings whatever the two prior generator
states were: the generator is deterministic under a fixed seed. -/
theorem generate_dna_sequence_deterministic_under_seed {σ : Type}
    (R : PyRandom σ) (length : Nat) (hpos : 0 < length) (seed : Nat)
    (st1 st2 : σ) :
    (generate_dna_sequence R length (some seed) st1).1 =
      (generate_dna_sequence R length (some seed) st2).1 := rfl

theorem generate_dna_sequence_deterministic_under_seed_witness :
    (generate_dna_sequence demoRandom 5 (some 42) 0).1 =
      (generate_dna_sequence demoRandom 5 (some 42) 99).1 :=
  generate_dna_sequence_deterministic_under_seed demoRandom 5 (by decide) 42 0 99

/-- C10: the `__main__` block always calls `generate_dna_sequence` with
the hardcoded seed `42`, so the base DNA sequence depends only on the
user-supplied length (and the PRNG algorithm), never on the prior
run-to-run state of the random source. -/
theorem main_pipeline_fixed_seed42 {σ : Type} (R : PyRandom σ)
    (length : Nat) (st1 st2 : σ) :
    main_dna_sequence R length st1 =
      generate_dna_sequence R length (some 42) st1 ∧
    (main_dna_sequence R length st1).1 = (main_dna_sequence R length st2).1 :=
  ⟨rfl, rfl⟩

/-! ## FASTA writer -/

/-- Modelled from the spec: `textwrap.wrap(sequence, 60)` is a call into
Python's standard library, which is not part of this repository; §4.4 of
the spec describes the wrap step as splitting the sequence into "lines of
at most 60 characters each (standard FASTA convention)", with zero-length
content yielding no lines.  `wrap60Go` takes successive 60-character
chunks; the fuel argument (instantiated with the input length, always
sufficient) only makes the recursion structural. -/
def wrap60Go : Nat → List Char → List (List Char)
  | _, [] => []
  | 0, _ :: _ => []
  | fuel + 1, c :: cs => (c :: cs).take 60 :: wrap60Go fuel ((c :: cs).drop 60)

/-- `textwrap.wrap(sequence, 60)` (see `wrap60Go`). -/
def wrap60 (sequence : List Char) : List (List Char) :=
  wrap60Go sequence.length sequence

/-- `'\n'.join(lines)`. -/
def joinNL : List (List Char) → List Char
  | [] => []
  | [x] => x
  | x :: y :: ys => x ++ '\n' :: joinNL (y :: ys)

/-- `save_to_fasta(filename, header, sequence)` writes
`f">{header}\n"` followed by `'\n'.join(textwrap.wrap(sequence, 60)) + '\n'`;
the value here is the full content of the written file. -/
def save_to_fasta (header sequence : List Char) : List Char :=
  ('>' :: header ++ ['\n']) ++ (joinNL (wrap60 sequence) ++ ['\n'])

/-- Splitting a character list at every `'\n'` (`str.split('\n')`):
`n` separators yield `n + 1` parts. -/
def splitNL : List Char → List (List Char)
  | [] => [[]]
  | c :: rest =>
    if c = '\n' then [] :: splitNL rest
    else
      match splitNL rest with
      | [] => [[c]]
      | p :: ps => (c :: p) :: ps

/-- Reading a text file back as its list of lines, without terminators
(Python `readlines` with the trailing `'\n'` of each line stripped): a
final empty part after the last `'\n'` is not a line. -/
def fileLines (content : List Char) : List (List Char) :=
  if (splitNL content).getLast? = some [] then (splitNL content).dropLast
  else splitNL content

/-! ## FASTA lemmas -/

lemma splitNL_append_newline (xs rest : List Char) (hx : '\n' ∉ xs) :
    splitNL (xs ++ '\n' :: rest) = xs :: splitNL rest := by
  induction xs with
  | nil => simp [splitNL]
  | cons c cs ih =>
    have hc : c ≠ '\n' := fun hcn => hx (hcn ▸ List.mem_cons_self c cs)
    have ih2 := ih fun hm => hx (List.mem_cons_of_mem c hm)
    simp only [List.cons_append, splitNL, if_neg hc, List.append_eq, ih2]

lemma joinNL_cons (x : List Char) (ys : List (List Char)) (hne : ys ≠ []) :
    joinNL (x :: ys) = x ++ '\n' :: joinNL ys := by
  cases ys with
  | nil => exact absurd rfl hne
  | cons y ys2 => rfl

lemma splitNL_joinNL (chunks : List (List Char)) (hne : chunks ≠ [])
    (hc : ∀ c ∈ chunks, '\n' ∉ c) :
    splitNL (joinNL chunks ++ ['\n']) = chunks ++ [[]] := by
  induction chunks with
  | nil => exact absurd rfl hne
  | cons x xs ih =>
    have hx : '\n' ∉ x := hc x (by simp)
    cases xs with
    | nil =>
      show splitNL (x ++ '\n' :: []) = [x, []]
      rw [splitNL_append_newline x [] hx]
      rfl
    | cons y ys =>
      have ih2 := ih (by simp) fun c hcc => hc c (List.mem_cons_of_mem _ hcc)
      rw [joinNL_cons x (y :: ys) (by simp), List.append_assoc,
        List.cons_append, splitNL_append_newline x _ hx, ih2]
      rfl

lemma wrap60Go_flatten (fuel : Nat) :
    ∀ l : List Char, l.length ≤ fuel → (wrap60Go fuel l).flatten = l := by
  induction fuel with
  | zero =>
    intro l hl
    rw [List.length_eq_zero.mp (Nat.le_zero.mp hl)]
    rfl
  | succ fuel ih =>
    intro l hl
    cases l with
    | nil => rfl
    | cons c cs =>
      have hd : ((c :: cs).drop 60).length ≤ fuel := by
        rw [List.length_drop]
        simp only [List.length_cons] at hl ⊢
        omega
      simp only [wrap60Go, List.flatten_cons, ih _ hd]
      exact List.take_append_drop 60 (c :: cs)

lemma wrap60_flatten (s : List Char) : (wrap60 s).flatten = s :=
  wrap60Go_flatten s.length s le_rfl

lemma wrap60Go_chunk_le (fuel : Nat) :
    ∀ l : List Char, ∀ ch ∈ wrap60Go fuel l, ch.length ≤ 60 := by
  induction fuel with
  | zero => intro l ch hch; cases l <;> simp [wrap60Go] at hch
  | succ fuel ih =>
    intro l ch hch
    cases l with
    | nil => simp [wrap60Go] at hch
    | cons c cs =>
      simp only [wrap60Go, List.mem_cons] at hch
      rcases hch with rfl | hch
      · simp [List.length_take]
      · exact ih _ ch hch

lemma wrap60Go_chunk_no_newline (fuel : Nat) :
    ∀ l : List Char, '\n' ∉ l → ∀ ch ∈ wrap60Go fuel l, '\n' ∉ ch := by
  induction fuel with
  | zero => intro l hl ch hch; cases l <;> simp [wrap60Go] at hch
  | succ fuel ih =>
    intro l hl ch hch
    cases l with
    | nil => simp [wrap60Go] at hch
    | cons c cs =>
      simp only [wrap60Go, List.mem_cons] at hch
      rcases hch with rfl | hch
      · exact fun hm => hl (List.take_subset 60 _ hm)
      · exact ih _ (fun hm => hl (List.drop_subset 60 _ hm)) ch hch

lemma wrap60_ne_nil (c : Char) (cs : List Char) : wrap60 (c :: cs) ≠ [] := by
  show wrap60Go (cs.length + 1) (c :: cs) ≠ []
  simp [wrap60Go]

/-- The lines of a written FASTA file, for a header and sequence free of
embedded newlines: the header line, then the wrapped chunks (an empty
sequence still yields one blank line, from the unconditional trailing
newline the writer appends). -/
lemma fileLines_save (h s : List Char) (hh : '\n' ∉ h) (hs : '\n' ∉ s) :
    fileLines (save_to_fasta h s) =
      ('>' :: h) :: (if s = [] then [[]] else wrap60 s) := by
  have hh2 : '\n' ∉ ('>' :: h) := by
    intro hm
    rcases List.mem_cons.mp hm with h1 | h1
    · exact absurd h1 (by decide)
    · exact hh h1
  cases s with
  | nil =>
    have hsp : splitNL (save_to_fasta h []) = ('>' :: h) :: [[], []] := by
      show splitNL (('>' :: h ++ ['\n']) ++ (joinNL (wrap60 []) ++ ['\n'])) = _
      have : ('>' :: h ++ ['\n']) ++ (joinNL (wrap60 []) ++ ['\n']) =
          ('>' :: h) ++ '\n' :: ['\n'] := by simp [wrap60, wrap60Go, joinNL]
      rw [this, splitNL_append_newline _ _ hh2]
      rfl
    have hcat : ('>' :: h) :: [[], []] =
        (('>' :: h) :: [[]] : List (List Char)) ++ [[]] := rfl
    simp only [fileLines, hsp, hcat, List.getLast?_concat, if_pos,
      List.dropLast_concat]
  | cons c cs =>
    have hcne := wrap60_ne_nil c cs
    have hcnl := wrap60Go_chunk_no_newline (c :: cs).length (c :: cs) hs
    have hsp : splitNL (save_to_fasta h (c :: cs)) =
        ('>' :: h) :: (wrap60 (c :: cs) ++ [[]]) := by
      show splitNL (('>' :: h ++ ['\n']) ++
        (joinNL (wrap60 (c :: cs)) ++ ['\n'])) = _
      have : ('>' :: h ++ ['\n']) ++ (joinNL (wrap60 (c :: cs)) ++ ['\n']) =
          ('>' :: h) ++ '\n' :: (joinNL (wrap60 (c :: cs)) ++ ['\n']) := by
        simp
      rw [this, splitNL_append_newline _ _ hh2,
        splitNL_joinNL (wrap60 (c :: cs)) hcne hcnl]
    have hcat : ('>' :: h) :: (wrap60 (c :: cs) ++ [[]]) =
        (('>' :: h) :: wrap60 (c :: cs)) ++ [[]] := by
      rw [List.cons_append]
    simp only [fileLines, hsp, hcat, List.getLast?_concat, if_pos,
      List.dropLast_concat]
    simp

/-! ## Claims C7..C9 -/

/-- C7 counterexample: the claim quantifies over every sequence string,
but for the sequence `"A\nB"` the concatenation of the non-header lines
of the written file is `"AB"`, not the original sequence — the embedded
newline is taken as a line break on re-reading. -/
theorem fasta_round_trip_fails_on_newline :
    ((fileLines (save_to_fasta ['h'] ['A', '\n', 'B'])).tail).flatten ≠
      ['A', '\n', 'B'] ∧
    ((fileLines (save_to_fasta ['h'] ['A', '\n', 'B'])).tail).flatten =
      ['A', 'B'] := by decide

/-- C7 (amended): for every header and sequence free of embedded newline
characters, re-reading the written FASTA file gives the header line
`'>' :: header` (so stripping the leading `'>'` recovers the header), and
concatenating all non-header lines reproduces the sequence exactly. -/
theorem fasta_round_trip_newline_free (h s : List Char)
    (hh : '\n' ∉ h) (hs : '\n' ∉ s) :
    ∃ rest, fileLines (save_to_fasta h s) = ('>' :: h) :: rest ∧
      rest.flatten = s ∧ ('>' :: h).drop 1 = h := by
  rw [fileLines_save h s hh hs]
  refine ⟨_, rfl, ?_, rfl⟩
  by_cases hsnil : s = []
  · subst hsnil; simp
  · rw [if_neg hsnil]
    exact wrap60_flatten s

theorem fasta_round_trip_newline_free_witness :
    ∃ rest, fileLines (save_to_fasta ['i', 'd'] ['A', 'C', 'G']) =
      ('>' :: ['i', 'd']) :: rest ∧ rest.flatten = ['A', 'C', 'G'] ∧
      ('>' :: ['i', 'd']).drop 1 = ['i', 'd'] :=
  fasta_round_trip_newline_free ['i', 'd'] ['A', 'C', 'G']
    (by decide) (by decide)

/-- C8 counterexample: for an empty sequence the written file is not just
the header line — re-reading it yields a second, empty line after the
header (the writer appends `'\n'` to the empty wrapped text
unconditionally), so "the file contains no sequence lines after the
header" is false. -/
theorem save_to_fasta_empty_extra_line :
    fileLines (save_to_fasta ['h'] []) = [['>', 'h'], []] ∧
    (fileLines (save_to_fasta ['h'] [])).tail ≠ [] := by decide

/-- C8 (amended): on an empty sequence `save_to_fasta` does not fault,
the wrap step yields no lines, and the header line is still emitted; but
because the writer unconditionally appends a newline to the (empty)
wrapped text, the file ends in two newlines and re-reading it gives the
header line followed by exactly one empty line. -/
theorem save_to_fasta_empty_sequence_blank_line (h : List Char)
    (hh : '\n' ∉ h) :
    wrap60 [] = [] ∧
    save_to_fasta h [] = ('>' :: h) ++ ['\n', '\n'] ∧
    fileLines (save_to_fasta h []) = [('>' :: h), []] := by
  refine ⟨rfl, ?_, ?_⟩
  · simp [save_to_fasta, wrap60, wrap60Go, joinNL]
  · simpa using fileLines_save h [] hh (by simp)

theorem save_to_fasta_empty_sequence_blank_line_witness :
    wrap60 [] = [] ∧
    save_to_fasta ['x'] [] = ('>' :: ['x']) ++ ['\n', '\n'] ∧
    fileLines (save_to_fasta ['x'] []) = [('>' :: ['x']), []] :=
  save_to_fasta_empty_sequence_blank_line ['x'] (by decide)

set_option maxRecDepth 8000 in
/-- C9: the written file starts with the line `'>' :: header`, ends with a
trailing newline, every line after the header has at most 60 characters,
for a nonempty sequence the lines after the header are exactly the
60-character chunks of the sequence, and a 130-character sequence is
written as 3 lines of lengths 60, 60 and 10. -/
theorem save_to_fasta_format (h s : List Char)
    (hh : '\n' ∉ h) (hs : '\n' ∉ s) :
    (fileLines (save_to_fasta h s)).head? = some ('>' :: h) ∧
    (save_to_fasta h s).getLast? = some '\n' ∧
    (∀ line ∈ (fileLines (save_to_fasta h s)).tail, line.length ≤ 60) ∧
    (s ≠ [] → (fileLines (save_to_fasta h s)).tail = wrap60 s) ∧
    (wrap60 (List.replicate 130 'A')).map List.length = [60, 60, 10] := by
  rw [fileLines_save h s hh hs]
  refine ⟨rfl, ?_, ?_, ?_, ?_⟩
  · show (('>' :: h ++ ['\n']) ++ (joinNL (wrap60 s) ++ ['\n'])).getLast? =
      some '\n'
    rw [← List.append_assoc]
    exact List.getLast?_concat _
  · intro line hline
    by_cases hsnil : s = []
    · subst hsnil
      simp at hline
      simp [hline]
    · rw [if_neg hsnil] at hline
      exact wrap60Go_chunk_le s.length s line hline
  · intro hsnil
    rw [if_neg hsnil]
    rfl
  · decide

theorem save_to_fasta_format_witness :
    (fileLines (save_to_fasta ['i', 'd'] ['A', 'C'])).head? =
      some ('>' :: ['i', 'd']) ∧
    (save_to_fasta ['i', 'd'] ['A', 'C']).getLast? = some '\n' ∧
    (∀ line ∈ (fileLines (save_to_fasta ['i', 'd'] ['A', 'C'])).tail,
      line.length ≤ 60) ∧
    (['A', 'C'] ≠ ([] : List Char) →
      (fileLines (save_to_fasta ['i', 'd'] ['A', 'C'])).tail =
        wrap60 ['A', 'C']) ∧
    (wrap60 (List.replicate 130 'A')).map List.length = [60, 60, 10] :=
  save_to_fasta_format ['i', 'd'] ['A', 'C'] (by decide) (by decide)
